import Mathlib

/-!
# Verification of the secret-santa core (`main.py`)

Shallow embedding of the solver core of the repository `rjfs/secret-santa`:

* `Person` models the Python `Person` class, keeping the two fields the
  solvers read (`name` and `restrictions`).  The `email`/`gender` fields are
  I/O glue never consulted by any solver, and the mutable `_secret_santa`
  field is rendered functionally as an `Assignment` map (the spec explicitly
  allows the functional rendering of the recipient pointer).
* `_brute_force_draw` / `brute_force_draw` model the rejection-sampling
  solver.  `random.choice` is modelled by a choice oracle `ch : Nat → Nat`
  giving, for step `k`, an index into the current pool (taken mod the pool
  length); the unbounded `while not valid` loop is modelled by a list of
  per-trial oracles, one per executed trial (`none` = the loop had not yet
  terminated after those trials).
* `get_secret_santa` / `dfs_draw` model the backtracking solver.
  `random.shuffle` is modelled by a shuffle oracle
  `sh : List Person → List Person`; theorems assume `∀ l, (sh l).Perm l`,
  which is exactly what an in-place shuffle guarantees.  The general
  recursion is rendered with explicit fuel: the outer `none` means "fuel
  exhausted", `some none` means the Python function returned `None`
  (failure), `some (some edges)` means success, where `edges` is the list of
  `set_secret_santa` mutations performed (the Python function mutates only
  on success: a failing call performs no mutation at all, since
  `set_secret_santa` is invoked only under a successful recursive result).
* `get_chain` models the chain extractor; its `while` loop is again given
  fuel, `none` modelling the abnormal behaviours (unset recipient, i.e. the
  Python `AttributeError` on `None.secret_santa`, or a loop that never
  reaches `top`).
-/

structure Person where
  name : String
  restrictions : List String
deriving DecidableEq

/-- The functional rendering of the mutable `_secret_santa` field:
`a p = some q` means `p._secret_santa is q`, `none` means unset. -/
abbrev Assignment := Person → Option Person

/-- Models `Person.set_secret_santa`: updates one person's recipient pointer. -/
def set_secret_santa (a : Assignment) (p ss : Person) : Assignment :=
  fun q => if q = p then some ss else a q

/-- The restriction set built by `get_people` for one contact record:
the split of the restrictions column on semicolons, plus the name, with the
empty string removed.  The Python `set`
is modelled as a list considered up to membership. -/
def get_people_restrictions (name raw : String) : List String :=
  ((raw.splitOn ";") ++ [name]).filter (fun s => s ≠ "")

/-- The `Person` built by `get_people` from one (already column-stripped)
contact record; `email`/`gender` are dropped as solver-irrelevant. -/
def person_from_record (name raw : String) : Person :=
  { name := name, restrictions := get_people_restrictions name raw }

/-- Models `Person.__init__`: a `None` (omitted) restrictions argument is stored as
the empty collection; an explicit argument is stored as given.  Note the
constructor does not add `name` itself. -/
def Person.init (name : String) (restrictions : Option (List String)) : Person :=
  { name := name, restrictions := restrictions.getD [] }

/-! ## Rejection-sampling solver (`brute_force_draw`) -/

/-- The `for p in people` loop of `_brute_force_draw`.  `ps` is the still
unprocessed iteration suffix, `pool` the Python `not_selected` list, `k` the
number of `random.choice` calls already made (indexing the oracle `ch`).
Returns the Python boolean result together with the final assignment state.
The Python code indexes a nonempty pool; an empty pool (unreachable when
`ps` and `pool` start as the same list) is rendered as a failed trial. -/
def _brute_force_draw_go (ch : Nat → Nat) (k : Nat) (ps pool : List Person)
    (a : Assignment) : Bool × Assignment :=
  match ps with
  | [] => (true, a)
  | p :: ps' =>
    if hp : pool = [] then (false, a)
    else
      let ss := pool.get ⟨ch k % pool.length, Nat.mod_lt _ (List.length_pos.mpr hp)⟩
      if ss.name = p.name ∨ ss.name ∈ p.restrictions then (false, a)
      else _brute_force_draw_go ch (k + 1) ps' (pool.erase ss) (set_secret_santa a p ss)

/-- One trial of `_brute_force_draw`: `not_selected = list(people)`, then the
loop over `people`. -/
def _brute_force_draw (ch : Nat → Nat) (people : List Person) (a : Assignment) :
    Bool × Assignment :=
  _brute_force_draw_go ch 0 people people a

/-- Models `brute_force_draw`: `while not valid: valid = _brute_force_draw(people)`.
One choice oracle per executed trial; `none` means the loop was still
running after the given trials. -/
def brute_force_draw (chs : List (Nat → Nat)) (people : List Person)
    (a : Assignment) : Option Assignment :=
  match chs with
  | [] => none
  | ch :: rest =>
    let r := _brute_force_draw ch people a
    if r.1 then some r.2 else brute_force_draw rest people r.2

/-! ## Backtracking solver (`dfs_draw` / `get_secret_santa`) -/

/-- The `for pers in possibilities` loop of `get_secret_santa`: `f pers` is
the recursive call for candidate `pers`; on its success the edge
`(current, pers)` (i.e. `current.set_secret_santa(pers)`) is committed in
front of the edges of the recursive result.  `some none` = all candidates
exhausted (`return None`), outer `none` = a recursive call ran out of fuel. -/
def try_possibilities (f : Person → Option (Option (List (Person × Person))))
    (current : Person) : List Person → Option (Option (List (Person × Person)))
  | [] => some none
  | pers :: rest =>
    match f pers with
    | none => none
    | some none => try_possibilities f current rest
    | some (some edges) => some (some ((current, pers) :: edges))

/-- Models `get_secret_santa(current, top, not_selected)`, fuel-indexed.  Returns
`some (some edges)` on success, where `edges` lists the
`set_secret_santa` mutations performed (a failing call performs none);
`some none` renders the Python `return None`; `none` = out of fuel. -/
def get_secret_santa (sh : List Person → List Person) (top : Person) :
    Nat → Person → List Person → Option (Option (List (Person × Person)))
  | 0, _, _ => none
  | fuel + 1, current, not_selected =>
    if not_selected = [] ∧ top.name ∉ current.restrictions then
      some (some [(current, top)])
    else
      try_possibilities
        (fun pers => get_secret_santa sh top fuel pers (not_selected.erase pers))
        current
        (sh (not_selected.filter (fun i => i.name ∉ current.restrictions)))

/-- Replays a list of `set_secret_santa` mutations on an assignment state. -/
def applyEdges (a : Assignment) : List (Person × Person) → Assignment
  | [] => a
  | e :: es => applyEdges (set_secret_santa a e.1 e.2) es

/-- Models `dfs_draw`: picks `top = tuple(people)[0]`, removes it from the copy of
the set, calls `get_secret_santa` — and discards its result, returning the
(assignment state of the) people regardless of success.  The mutations of a
successful search are replayed; a failed search performed none. -/
def dfs_draw (sh : List Person → List Person) (fuel : Nat)
    (people : List Person) (a : Assignment) : Assignment :=
  match people with
  | [] => a
  | top :: _ =>
    match get_secret_santa sh top fuel top (people.erase top) with
    | some (some edges) => applyEdges a edges
    | _ => a

/-! ## Chain extractor (`get_chain`) -/

/-- The `while current.secret_santa != top` loop of `get_chain`, fuel-indexed.
`none` models abnormal behaviour: an unset recipient (Python raises
`AttributeError` on `None.secret_santa`) or a walk that has not closed on
`top` within the given fuel (the Python loop would still be running). -/
def get_chain_go (a : Assignment) (top : Person) : Nat → Person → Option (List Person)
  | 0, _ => none
  | fuel + 1, current =>
    match a current with
    | none => none
    | some s =>
      if s = top then some [current]
      else Option.map (fun l => current :: l) (get_chain_go a top fuel s)

/-- Models `get_chain`: starts at `top = tuple(people)[0]` and follows recipient
edges until the edge returns to `top`. -/
def get_chain (fuel : Nat) (a : Assignment) (people : List Person) :
    Option (List Person) :=
  match people with
  | [] => none
  | top :: _ => get_chain_go a top fuel top

/-! ## Derived notions used to state the claims -/

/-- Predicate `linkedB a x xs top`: starting at `x`, each element of `x :: xs` has its
recipient set to the next element, and the last element's recipient is
`top` — i.e. the recipient edges trace the path `x :: xs` and then close on
`top`. -/
def linkedB (a : Assignment) : Person → List Person → Person → Bool
  | x, [], top => decide (a x = some top)
  | x, y :: ys, top => decide (a x = some y) && linkedB a y ys top

/-- The edge list the backtracking solver commits for a found chain `ord`
closing on `top`: consecutive edges along `ord`, then `last → top`. -/
def chainEdges (top : Person) : List Person → List (Person × Person)
  | [] => []
  | [x] => [(x, top)]
  | x :: y :: rest => (x, y) :: chainEdges top (y :: rest)

/-- Every committed edge respects the receiving person's restrictions. -/
def validEdges (es : List (Person × Person)) : Prop :=
  ∀ e ∈ es, e.2.name ∉ e.1.restrictions

/-! ## Concrete instances used by counterexamples and witnesses -/

def pa : Person := ⟨"a", []⟩
def pb : Person := ⟨"b", []⟩
def pc : Person := ⟨"c", []⟩
def pd : Person := ⟨"d", []⟩

/-- Four people with no restrictions, in registry iteration order. -/
def people4 : List Person := [pa, pb, pc, pd]

/-- Choice oracle steering one rejection-sampling trial on `people4` into
the two 2-cycles `a ↔ b` and `c ↔ d`. -/
def ch4 : Nat → Nat := fun k => if k = 0 then 1 else if k = 2 then 1 else 0

/-- The all-unset assignment state (`_secret_santa = None` everywhere). -/
def emptyA : Assignment := fun _ => none

/-- Three people each excluding the entire population. -/
def pX : Person := ⟨"x", ["x", "y", "z"]⟩
def pY : Person := ⟨"y", ["x", "y", "z"]⟩
def pZ : Person := ⟨"z", ["x", "y", "z"]⟩

/-! ## Helper lemmas: rejection-sampling trial -/

theorem set_secret_santa_self (a : Assignment) (p ss : Person) :
    set_secret_santa a p ss p = some ss := by
  simp [set_secret_santa]

theorem set_secret_santa_other (a : Assignment) (p ss q : Person) (h : q ≠ p) :
    set_secret_santa a p ss q = a q := by
  simp [set_secret_santa, h]

/-- The trial's success flag never depends on the incoming assignment state:
the loop never reads `_secret_santa`. -/
theorem bfdGo_fst_indep (ch : Nat → Nat) :
    ∀ (ps pool : List Person) (k : Nat) (a b : Assignment),
      (_brute_force_draw_go ch k ps pool a).1 = (_brute_force_draw_go ch k ps pool b).1 := by
  intro ps
  induction ps with
  | nil => intro pool k a b; rfl
  | cons p ps ih =>
    intro pool k a b
    by_cases hp : pool = []
    · simp [_brute_force_draw_go, hp]
    · simp only [_brute_force_draw_go, dif_neg hp]
      split
      · rfl
      · exact ih _ _ _ _

/-- The trial only writes the recipients of the people it iterates over. -/
theorem bfdGo_frame (ch : Nat → Nat) :
    ∀ (ps pool : List Person) (k : Nat) (a : Assignment) (x : Person), x ∉ ps →
      (_brute_force_draw_go ch k ps pool a).2 x = a x := by
  intro ps
  induction ps with
  | nil => intro pool k a x _; rfl
  | cons p ps ih =>
    intro pool k a x hx
    rw [List.mem_cons, not_or] at hx
    by_cases hp : pool = []
    · simp [_brute_force_draw_go, hp]
    · simp only [_brute_force_draw_go, dif_neg hp]
      split
      · rfl
      · rw [ih _ _ _ _ hx.2]
        exact set_secret_santa_other _ _ _ _ hx.1

/-- On a successful trial the final recipients of the iterated people do not
depend on the incoming assignment state. -/
theorem bfdGo_agree (ch : Nat → Nat) :
    ∀ (ps pool : List Person) (k : Nat) (a b : Assignment),
      (_brute_force_draw_go ch k ps pool a).1 = true →
      ∀ p ∈ ps, (_brute_force_draw_go ch k ps pool a).2 p = (_brute_force_draw_go ch k ps pool b).2 p := by
  intro ps
  induction ps with
  | nil => intro _ _ _ _ _ p hp; exact absurd hp (List.not_mem_nil p)
  | cons p ps ih =>
    intro pool k a b hs q hq
    by_cases hp : pool = []
    · rw [_brute_force_draw_go, dif_pos hp] at hs; exact absurd hs (by simp)
    · simp only [_brute_force_draw_go, dif_neg hp] at hs ⊢
      split at hs
      · exact absurd hs (by simp)
      · rename_i hcheck
        rw [if_neg hcheck, if_neg hcheck]
        by_cases hq' : q ∈ ps
        · exact ih _ _ _ _ hs q hq'
        · have hqp : q = p := by
            rcases List.mem_cons.mp hq with h | h
            · exact h
            · exact absurd h hq'
          subst hqp
          rw [bfdGo_frame ch ps _ _ _ q hq', bfdGo_frame ch ps _ _ _ q hq']
          rw [set_secret_santa_self, set_secret_santa_self]

/-- On a successful trial every iterated person ends up with a recipient
that passed the `ss.name in {p.name} | set(p.restrictions)` check. -/
theorem bfdGo_checked (ch : Nat → Nat) :
    ∀ (ps pool : List Person) (k : Nat) (a : Assignment),
      (_brute_force_draw_go ch k ps pool a).1 = true →
      ∀ p ∈ ps, ∃ ss, (_brute_force_draw_go ch k ps pool a).2 p = some ss
        ∧ ss.name ≠ p.name ∧ ss.name ∉ p.restrictions := by
  intro ps
  induction ps with
  | nil => intro _ _ _ _ p hp; exact absurd hp (List.not_mem_nil p)
  | cons p ps ih =>
    intro pool k a hs q hq
    by_cases hp : pool = []
    · rw [_brute_force_draw_go, dif_pos hp] at hs; exact absurd hs (by simp)
    · simp only [_brute_force_draw_go, dif_neg hp] at hs ⊢
      split at hs
      · exact absurd hs (by simp)
      · rename_i hcheck
        rw [not_or] at hcheck
        rw [if_neg (by rw [not_or]; exact hcheck)]
        by_cases hq' : q ∈ ps
        · exact ih _ _ _ hs q hq'
        · have hqp : q = p := by
            rcases List.mem_cons.mp hq with h | h
            · exact h
            · exact absurd h hq'
          subst hqp
          refine ⟨_, ?_, hcheck.1, hcheck.2⟩
          rw [bfdGo_frame ch ps _ _ _ q hq', set_secret_santa_self]

/-- On a successful trial each iterated person's recipient comes from the
current pool. -/
theorem bfdGo_mem (ch : Nat → Nat) :
    ∀ (ps pool : List Person) (k : Nat) (a : Assignment), ps.Nodup →
      (_brute_force_draw_go ch k ps pool a).1 = true →
      ∀ p ∈ ps, ∃ ss, (_brute_force_draw_go ch k ps pool a).2 p = some ss ∧ ss ∈ pool := by
  intro ps
  induction ps with
  | nil => intro _ _ _ _ _ p hp; exact absurd hp (List.not_mem_nil p)
  | cons p ps ih =>
    intro pool k a hnd hs q hq
    rw [List.nodup_cons] at hnd
    by_cases hp : pool = []
    · rw [_brute_force_draw_go, dif_pos hp] at hs; exact absurd hs (by simp)
    · simp only [_brute_force_draw_go, dif_neg hp] at hs ⊢
      split at hs
      · exact absurd hs (by simp)
      · rename_i hcheck
        rw [if_neg hcheck]
        by_cases hq' : q ∈ ps
        · obtain ⟨ss, hss, hmem⟩ := ih _ _ _ hnd.2 hs q hq'
          exact ⟨ss, hss, List.mem_of_mem_erase hmem⟩
        · have hqp : q = p := by
            rcases List.mem_cons.mp hq with h | h
            · exact h
            · exact absurd h hq'
          subst hqp
          rw [bfdGo_frame ch ps _ _ _ q hq', set_secret_santa_self]
          exact ⟨_, rfl, List.get_mem _ _ _⟩

/-- On a successful trial two distinct iterated people get distinct
recipients: the chosen candidate is removed from the pool. -/
theorem bfdGo_inj (ch : Nat → Nat) :
    ∀ (ps pool : List Person) (k : Nat) (a : Assignment), ps.Nodup → pool.Nodup →
      (_brute_force_draw_go ch k ps pool a).1 = true →
      ∀ p ∈ ps, ∀ q ∈ ps, p ≠ q →
        (_brute_force_draw_go ch k ps pool a).2 p ≠ (_brute_force_draw_go ch k ps pool a).2 q := by
  intro ps
  induction ps with
  | nil => intro _ _ _ _ _ _ p hp; exact absurd hp (List.not_mem_nil p)
  | cons p ps ih =>
    intro pool k a hnd hpool hs x hx y hy hxy
    rw [List.nodup_cons] at hnd
    by_cases hp : pool = []
    · rw [_brute_force_draw_go, dif_pos hp] at hs; exact absurd hs (by simp)
    · simp only [_brute_force_draw_go, dif_neg hp] at hs ⊢
      split at hs
      · exact absurd hs (by simp)
      · rename_i hcheck
        rw [if_neg hcheck]
        by_cases hx' : x ∈ ps <;> by_cases hy' : y ∈ ps
        · exact ih _ _ _ hnd.2 (hpool.erase _) hs x hx' y hy' hxy
        · have hyp : y = p := by
            rcases List.mem_cons.mp hy with h | h
            · exact h
            · exact absurd h hy'
          obtain ⟨ssx, hssx, hmemx⟩ := bfdGo_mem ch ps _ _ _ hnd.2 hs x hx'
          rw [hssx, hyp, bfdGo_frame ch ps _ _ _ p (hyp ▸ hy'), set_secret_santa_self]
          have hne : ssx ≠ _ := ((List.Nodup.mem_erase_iff hpool).mp hmemx).1
          exact fun hcontra => hne (Option.some.inj hcontra)
        · have hxp : x = p := by
            rcases List.mem_cons.mp hx with h | h
            · exact h
            · exact absurd h hx'
          obtain ⟨ssy, hssy, hmemy⟩ := bfdGo_mem ch ps _ _ _ hnd.2 hs y hy'
          rw [hssy, hxp, bfdGo_frame ch ps _ _ _ p (hxp ▸ hx'), set_secret_santa_self]
          have hne : ssy ≠ _ := ((List.Nodup.mem_erase_iff hpool).mp hmemy).1
          exact fun hcontra => hne (Option.some.inj hcontra).symm
        · have hxp : x = p := by
            rcases List.mem_cons.mp hx with h | h
            · exact h
            · exact absurd h hx'
          have hyp : y = p := by
            rcases List.mem_cons.mp hy with h | h
            · exact h
            · exact absurd h hy'
          exact absurd (hxp.trans hyp.symm) hxy

/-- A successful run of the `while` loop of `brute_force_draw` is a
successful final trial, executed from the state the failed trials left. -/
theorem brute_force_draw_eq_some :
    ∀ (chs : List (Nat → Nat)) (people : List Person) (a a' : Assignment),
      brute_force_draw chs people a = some a' →
      ∃ ch ∈ chs, ∃ a₀, _brute_force_draw ch people a₀ = (true, a') := by
  intro chs
  induction chs with
  | nil => intro people a a' h; exact absurd h (by simp [brute_force_draw])
  | cons ch rest ih =>
    intro people a a' h
    simp only [brute_force_draw] at h
    split at h
    · rename_i hflag
      refine ⟨ch, List.mem_cons_self _ _, a, ?_⟩
      obtain rfl : (_brute_force_draw ch people a).2 = a' := by
        injection h
      exact Prod.ext hflag rfl
    · obtain ⟨ch', hmem, a₀, h'⟩ := ih people _ a' h
      exact ⟨ch', List.mem_cons_of_mem _ hmem, a₀, h'⟩

/-! ## Helper lemmas: backtracking search -/

/-- A successful candidate loop found one candidate whose recursive call
succeeded, and committed `current → pers` in front of its edges. -/
theorem try_possibilities_success :
    ∀ (f : Person → Option (Option (List (Person × Person)))) (current : Person)
      (cands : List Person) (edges : List (Person × Person)),
      try_possibilities f current cands = some (some edges) →
      ∃ pers ∈ cands, ∃ es, f pers = some (some es) ∧ edges = (current, pers) :: es := by
  intro f current cands
  induction cands with
  | nil => intro edges h; exact absurd h (by simp [try_possibilities])
  | cons pers rest ih =>
    intro edges h
    rw [try_possibilities] at h
    match hf : f pers with
    | none => rw [hf] at h; exact absurd h (by simp)
    | some none =>
      rw [hf] at h
      obtain ⟨pers', hmem, es, hes, hedges⟩ := ih edges h
      exact ⟨pers', List.mem_cons_of_mem _ hmem, es, hes, hedges⟩
    | some (some es) =>
      rw [hf] at h
      obtain rfl : (current, pers) :: es = edges := by injection h with h'; injection h'
      exact ⟨pers, List.mem_cons_self _ _, es, hf, rfl⟩

/-- A failed candidate loop means every candidate's recursive call failed. -/
theorem try_possibilities_failure :
    ∀ (f : Person → Option (Option (List (Person × Person)))) (current : Person)
      (cands : List Person),
      try_possibilities f current cands = some none →
      ∀ pers ∈ cands, f pers = some none := by
  intro f current cands
  induction cands with
  | nil => intro _ pers hp; exact absurd hp (List.not_mem_nil pers)
  | cons pers rest ih =>
    intro h q hq
    rw [try_possibilities] at h
    match hf : f pers with
    | none => rw [hf] at h; exact absurd h (by simp)
    | some none =>
      rw [hf] at h
      rcases List.mem_cons.mp hq with rfl | hq'
      · exact hf
      · exact ih h q hq'
    | some (some es) => rw [hf] at h; exact absurd h (by simp)

/-- The candidate loop returns (rather than running out of fuel) as soon as
every candidate's recursive call does. -/
theorem try_possibilities_isSome :
    ∀ (f : Person → Option (Option (List (Person × Person)))) (current : Person)
      (cands : List Person),
      (∀ pers ∈ cands, (f pers).isSome = true) →
      (try_possibilities f current cands).isSome = true := by
  intro f current cands
  induction cands with
  | nil => intro _; rfl
  | cons pers rest ih =>
    intro h
    rw [try_possibilities]
    match hf : f pers with
    | none =>
      have := h pers (List.mem_cons_self _ _)
      rw [hf] at this
      exact absurd this (by simp)
    | some none => exact ih fun q hq => h q (List.mem_cons_of_mem _ hq)
    | some (some es) => rfl

/-- Structure of a successful backtracking search: the committed edges trace
a path `current :: l` closing on `top`, where `l` is a permutation of
`not_selected`, and every edge respects the receiver's restrictions. -/
theorem gss_success (sh : List Person → List Person) (top : Person)
    (hsh : ∀ l : List Person, (sh l).Perm l) :
    ∀ (fuel : Nat) (current : Person) (ns : List Person) (edges : List (Person × Person)),
      get_secret_santa sh top fuel current ns = some (some edges) →
      ∃ l, l.Perm ns ∧ edges = chainEdges top (current :: l) ∧ validEdges edges := by
  intro fuel
  induction fuel with
  | zero => intro current ns edges h; exact absurd h (by rw [get_secret_santa]; simp)
  | succ fuel ih =>
    intro current ns edges h
    rw [get_secret_santa] at h
    by_cases hc : ns = [] ∧ top.name ∉ current.restrictions
    · rw [if_pos hc] at h
      obtain rfl : [(current, top)] = edges := by injection h with h'; injection h'
      refine ⟨[], by rw [hc.1], rfl, ?_⟩
      intro e he
      rw [List.mem_singleton] at he
      subst he
      exact hc.2
    · rw [if_neg hc] at h
      obtain ⟨pers, hmem, es, hes, hedges⟩ := try_possibilities_success _ _ _ _ h
      rw [(hsh _).mem_iff, List.mem_filter] at hmem
      obtain ⟨hns, hname⟩ := hmem
      have hname' : pers.name ∉ current.restrictions := of_decide_eq_true hname
      obtain ⟨l', hperm, hes', hvalid⟩ := ih pers (ns.erase pers) es hes
      refine ⟨pers :: l', ?_, ?_, ?_⟩
      · exact (hperm.cons pers).trans (List.perm_cons_erase hns).symm
      · rw [hedges, hes']
        rfl
      · intro e he
        rw [hedges] at he
        rcases List.mem_cons.mp he with rfl | he'
        · exact hname'
        · exact hvalid e he'

/-- Termination of the backtracking search: with fuel exceeding the size of
`not_selected` the search returns (success or failure), never running out —
each recursive call strictly shrinks `not_selected`. -/
theorem gss_terminates (sh : List Person → List Person) (top : Person)
    (hsh : ∀ l : List Person, (sh l).Perm l) :
    ∀ (fuel : Nat) (current : Person) (ns : List Person), ns.length < fuel →
      (get_secret_santa sh top fuel current ns).isSome = true := by
  intro fuel
  induction fuel with
  | zero => intro current ns h; exact absurd h (by omega)
  | succ fuel ih =>
    intro current ns hlen
    rw [get_secret_santa]
    by_cases hc : ns = [] ∧ top.name ∉ current.restrictions
    · rw [if_pos hc]; rfl
    · rw [if_neg hc]
      apply try_possibilities_isSome
      intro pers hpers
      rw [(hsh _).mem_iff, List.mem_filter] at hpers
      have hmem : pers ∈ ns := hpers.1
      apply ih
      rw [List.length_erase_of_mem hmem]
      have : 1 ≤ ns.length := List.length_pos.mpr (List.ne_nil_of_mem hmem)
      omega

/-- Failure completeness: if the search fails then every remaining person
allowed by the restrictions of `current` was tried and its recursive call failed. -/
theorem gss_failure (sh : List Person → List Person) (top : Person)
    (hsh : ∀ l : List Person, (sh l).Perm l) (fuel : Nat) (current : Person)
    (ns : List Person) (h : get_secret_santa sh top (fuel + 1) current ns = some none) :
    ∀ pers ∈ ns, pers.name ∉ current.restrictions →
      get_secret_santa sh top fuel pers (ns.erase pers) = some none := by
  intro pers hmem hname
  rw [get_secret_santa] at h
  by_cases hc : ns = [] ∧ top.name ∉ current.restrictions
  · rw [if_pos hc] at h; exact absurd h (by simp)
  · rw [if_neg hc] at h
    exact try_possibilities_failure _ _ _ h pers
      (by rw [(hsh _).mem_iff, List.mem_filter]; exact ⟨hmem, decide_eq_true hname⟩)

/-! ## Helper lemmas: replaying mutations and extracting the chain -/

theorem applyEdges_not_mem :
    ∀ (es : List (Person × Person)) (a : Assignment) (x : Person),
      x ∉ es.map Prod.fst → applyEdges a es x = a x := by
  intro es
  induction es with
  | nil => intro a x _; rfl
  | cons e es ih =>
    intro a x hx
    rw [List.map_cons, List.mem_cons, not_or] at hx
    rw [applyEdges, ih _ _ hx.2]
    exact set_secret_santa_other _ _ _ _ hx.1

theorem applyEdges_mem :
    ∀ (es : List (Person × Person)) (a : Assignment) (p s : Person),
      (es.map Prod.fst).Nodup → (p, s) ∈ es → applyEdges a es p = some s := by
  intro es
  induction es with
  | nil => intro a p s _ h; exact absurd h (List.not_mem_nil _)
  | cons e es ih =>
    intro a p s hnd hmem
    rw [List.map_cons, List.nodup_cons] at hnd
    rcases List.mem_cons.mp hmem with rfl | hmem'
    · rw [applyEdges, applyEdges_not_mem es _ _ hnd.1, set_secret_santa_self]
    · exact ih _ p s hnd.2 hmem'

theorem applyEdges_some :
    ∀ (es : List (Person × Person)) (a : Assignment) (p s : Person),
      applyEdges a es p = some s → (p, s) ∈ es ∨ a p = some s := by
  intro es
  induction es with
  | nil => intro a p s h; exact Or.inr h
  | cons e es ih =>
    intro a p s h
    rw [applyEdges] at h
    rcases ih _ p s h with hmem | hset
    · exact Or.inl (List.mem_cons_of_mem _ hmem)
    · by_cases hp : p = e.1
      · subst hp
        rw [set_secret_santa_self] at hset
        obtain rfl : e.2 = s := Option.some.inj hset
        exact Or.inl (by rw [List.mem_cons]; left; rfl)
      · rw [set_secret_santa_other _ _ _ _ hp] at hset
        exact Or.inr hset

/-- The sources of the committed chain edges are exactly the chain. -/
theorem chainEdges_map_fst (top : Person) :
    ∀ ord : List Person, (chainEdges top ord).map Prod.fst = ord
  | [] => rfl
  | [_] => rfl
  | x :: y :: rest => by
    rw [chainEdges, List.map_cons, chainEdges_map_fst top (y :: rest)]

/-- Both endpoints of a committed chain edge lie on the chain (or are `top`). -/
theorem chainEdges_mem (top : Person) :
    ∀ (ord : List Person) (u v : Person),
      (u, v) ∈ chainEdges top ord → u ∈ ord ∧ (v ∈ ord ∨ v = top)
  | [] => by intro u v h; exact absurd h (List.not_mem_nil _)
  | [x] => by
    intro u v h
    rw [chainEdges, List.mem_singleton, Prod.mk.injEq] at h
    obtain ⟨rfl, rfl⟩ := h
    exact ⟨List.mem_singleton_self _, Or.inr rfl⟩
  | x :: y :: rest => by
    intro u v h
    rw [chainEdges] at h
    rcases List.mem_cons.mp h with heq | htail
    · rw [Prod.mk.injEq] at heq
      obtain ⟨rfl, rfl⟩ := heq
      exact ⟨List.mem_cons_self _ _, Or.inl (List.mem_cons_of_mem _ (List.mem_cons_self _ _))⟩
    · obtain ⟨hu, hv⟩ := chainEdges_mem top (y :: rest) u v htail
      refine ⟨List.mem_cons_of_mem _ hu, ?_⟩
      rcases hv with hv | hv
      · exact Or.inl (List.mem_cons_of_mem _ hv)
      · exact Or.inr hv

/-- On a duplicate-free chain avoiding `top` (except possibly at its head
when the chain is longer than one node), no committed edge is a self-loop. -/
theorem chainEdges_ne (top : Person) :
    ∀ (l : List Person) (x : Person), (x :: l).Nodup → top ∉ l → (l ≠ [] ∨ x ≠ top) →
      ∀ u v, (u, v) ∈ chainEdges top (x :: l) → u ≠ v
  | [], x => by
    intro _ _ hx u v h
    rw [chainEdges, List.mem_singleton, Prod.mk.injEq] at h
    obtain ⟨rfl, rfl⟩ := h
    rcases hx with hx | hx
    · exact absurd rfl hx
    · exact hx
  | y :: l, x => by
    intro hnd htop _ u v h
    rw [List.nodup_cons] at hnd
    rw [List.mem_cons, not_or] at htop
    rw [chainEdges] at h
    rcases List.mem_cons.mp h with heq | htail
    · rw [Prod.mk.injEq] at heq
      obtain ⟨rfl, rfl⟩ := heq
      exact fun hxy => hnd.1 (hxy ▸ List.mem_cons_self _ _)
    · exact chainEdges_ne top l y hnd.2 htop.2
        (Or.inr fun hy => htop.1 hy.symm) u v htail

/-- An assignment that contains all committed chain edges links the chain. -/
theorem linkedB_of_edges (a : Assignment) (top : Person) :
    ∀ (xs : List Person) (x : Person),
      (∀ p s, (p, s) ∈ chainEdges top (x :: xs) → a p = some s) →
      linkedB a x xs top = true
  | [], x => by
    intro h
    rw [linkedB]
    exact decide_eq_true (h x top (by rw [chainEdges, List.mem_singleton]))
  | y :: ys, x => by
    intro h
    rw [linkedB, Bool.and_eq_true]
    constructor
    · exact decide_eq_true (h x y (by rw [chainEdges]; exact List.mem_cons_self _ _))
    · exact linkedB_of_edges a top ys y
        (fun p s hps => h p s (by rw [chainEdges]; exact List.mem_cons_of_mem _ hps))

/-- The extraction loop follows a linked chain exactly, stopping when the
edge returns to `top`. -/
theorem get_chain_go_eq (a : Assignment) (top : Person) :
    ∀ (xs : List Person) (current : Person) (fuel : Nat),
      linkedB a current xs top = true → top ∉ xs → xs.length < fuel →
      get_chain_go a top fuel current = some (current :: xs)
  | [], current, fuel => by
    intro hl _ hfuel
    match fuel with
    | 0 => exact absurd hfuel (by omega)
    | fuel + 1 =>
      rw [linkedB] at hl
      rw [get_chain_go, of_decide_eq_true hl]
      show (if top = top then some [current]
        else Option.map (fun l => current :: l) (get_chain_go a top fuel top)) = some [current]
      rw [if_pos rfl]
  | y :: ys, current, fuel => by
    intro hl htop hfuel
    rw [linkedB, Bool.and_eq_true] at hl
    rw [List.mem_cons, not_or] at htop
    match fuel with
    | 0 => exact absurd hfuel (by omega)
    | fuel + 1 =>
      rw [get_chain_go, of_decide_eq_true hl.1]
      show (if y = top then some [current]
        else Option.map (fun l => current :: l) (get_chain_go a top fuel y)) =
          some (current :: y :: ys)
      rw [if_neg (fun hy : y = top => htop.1 hy.symm),
        get_chain_go_eq a top ys y fuel hl.2 htop.2 (by simpa using hfuel)]
      rfl

/-! ## Claim theorems -/

/-- C1, counterexample: a registry of N = 4 people with no restrictions,
"successfully solved" by `brute_force_draw` (its trial accepted the
assignment), on which `get_chain` returns a chain of length 2, not 4 — the
trial produced the two disjoint 2-cycles `a ↔ b`, `c ↔ d`, so the chain
neither has length N nor contains each person. -/
theorem c1_counterexample :
    (brute_force_draw [ch4] people4 emptyA).isSome = true
    ∧ Option.map (fun a => Option.map List.length (get_chain 4 a people4))
        (brute_force_draw [ch4] people4 emptyA) = some (some 2)
    ∧ Option.map (fun a => get_chain 4 a people4) (brute_force_draw [ch4] people4 emptyA)
        = some (some [pa, pb])
    ∧ people4.length = 4 ∧ pc ∈ people4 ∧ pc ∉ ([pa, pb] : List Person) := by
  refine ⟨by decide, by decide, by decide, by decide, by decide, by decide⟩

/-- C3 (code bug): on three people each excluding the whole population the
search itself correctly detects infeasibility (`get_secret_santa` returns
`None`, with fuel to spare), but `dfs_draw` discards that result and
returns normally with every recipient still unassigned — it does not report
infeasibility to its caller. -/
theorem c3_dfs_draw_swallows_failure :
    get_secret_santa id pX 3 pX (([pX, pY, pZ] : List Person).erase pX) = some none
    ∧ (dfs_draw id 3 [pX, pY, pZ] emptyA) pX = none
    ∧ (dfs_draw id 3 [pX, pY, pZ] emptyA) pY = none
    ∧ (dfs_draw id 3 [pX, pY, pZ] emptyA) pZ = none := by
  refine ⟨by decide, by decide, by decide, by decide⟩

/-- C4: the rejection-sampling acceptance test never checks single-cyclicity:
on the restriction-free registry `[a, b, c, d]` there is a choice sequence
(`ch4`) on which `brute_force_draw` terminates successfully with the
recipient permutation `a ↦ b, b ↦ a, c ↦ d, d ↦ c`, i.e. two disjoint
2-cycles. -/
theorem c4_accepts_subcycles :
    (brute_force_draw [ch4] people4 emptyA).isSome = true
    ∧ Option.map (fun a => (a pa, a pb, a pc, a pd)) (brute_force_draw [ch4] people4 emptyA)
        = some (some pb, some pa, some pd, some pc)
    ∧ pa ≠ pc ∧ pa ≠ pd ∧ pb ≠ pc ∧ pb ≠ pd := by
  refine ⟨by decide, by decide, by decide, by decide, by decide, by decide⟩

/-- C5, counterexample: a `Person` constructed directly with `restrictions`
omitted (`Person('a')`) stores the empty collection, which does not contain
the person's own name — the constructor never adds it. -/
theorem c5_counterexample :
    (Person.init "a" none).name = "a" ∧ "a" ∉ (Person.init "a" none).restrictions := by
  refine ⟨by decide, by decide⟩

/-- C5 (amended): the input loader `get_people` always adds the person's own
(non-empty) name to the exclusion set; the bare constructor stores the
restrictions exactly as passed (empty when omitted) and does not add the
name. -/
theorem c5_loader_adds_own_name (name raw : String) (hname : name ≠ "") :
    name ∈ (person_from_record name raw).restrictions
    ∧ (∀ rs : List String, (Person.init name (some rs)).restrictions = rs)
    ∧ (Person.init name none).restrictions = [] := by
  refine ⟨?_, fun rs => rfl, rfl⟩
  show name ∈ get_people_restrictions name raw
  rw [get_people_restrictions]
  rw [List.mem_filter]
  refine ⟨List.mem_append.mpr (Or.inr (List.mem_singleton_self name)), ?_⟩
  exact decide_eq_true hname

theorem c5_witness :
    ("alice" : String) ≠ "" ∧ "alice" ∈ (person_from_record "alice" "bob;carol").restrictions :=
  ⟨by decide, (c5_loader_adds_own_name "alice" "bob;carol" (by decide)).1⟩

/-- C1 (amended): for every registry of N ≥ 2 distinct people successfully
solved by the backtracking solver (`get_secret_santa` reached success inside
`dfs_draw`), the chain returned by `get_chain` has length exactly N and
contains each person exactly once — the recipient edges form one directed
cycle over all the people.  For `brute_force_draw` the original claim is
false (see the counterexample): its acceptance test allows disjoint
sub-cycles. -/
theorem c1_dfs_chain_covers (sh : List Person → List Person)
    (hsh : ∀ l : List Person, (sh l).Perm l) (top : Person) (ptail : List Person)
    (fuel : Nat) (edges : List (Person × Person))
    (hnd : (top :: ptail).Nodup) (_hN : 2 ≤ (top :: ptail).length)
    (hsucc : get_secret_santa sh top fuel top ((top :: ptail).erase top) = some (some edges)) :
    ∃ chain, get_chain (top :: ptail).length (dfs_draw sh fuel (top :: ptail) emptyA)
        (top :: ptail) = some chain
      ∧ chain.length = (top :: ptail).length ∧ chain.Perm (top :: ptail) := by
  rw [List.erase_cons_head] at hsucc
  obtain ⟨l, hperm, hedges, _⟩ := gss_success sh top hsh fuel top ptail edges hsucc
  have hdfs : dfs_draw sh fuel (top :: ptail) emptyA = applyEdges emptyA edges := by
    simp only [dfs_draw, List.erase_cons_head, hsucc]
  have hpc : (top :: l).Perm (top :: ptail) := hperm.cons top
  have hndl : (top :: l).Nodup := hpc.nodup_iff.mpr hnd
  have hfst : edges.map Prod.fst = top :: l := by rw [hedges, chainEdges_map_fst]
  have hlink : linkedB (applyEdges emptyA edges) top l top = true := by
    apply linkedB_of_edges
    intro p s hps
    exact applyEdges_mem edges emptyA p s (by rw [hfst]; exact hndl) (by rw [hedges]; exact hps)
  have htopl : top ∉ l := (List.nodup_cons.mp hndl).1
  have hlen : l.length = ptail.length := hperm.length_eq
  refine ⟨top :: l, ?_, by simp [hlen], hpc⟩
  rw [hdfs]
  show get_chain_go (applyEdges emptyA edges) top (top :: ptail).length top = some (top :: l)
  exact get_chain_go_eq _ top l top _ hlink htopl (by rw [List.length_cons, hlen]; omega)

theorem c1_witness :
    ∃ chain, get_chain ([pa, pb] : List Person).length (dfs_draw id 2 [pa, pb] emptyA) [pa, pb]
        = some chain
      ∧ chain.length = ([pa, pb] : List Person).length ∧ chain.Perm [pa, pb] :=
  c1_dfs_chain_covers id (fun l => List.Perm.refl l) pa [pb] 2 [(pa, pb), (pb, pa)]
    (by decide) (by decide) (by decide)

/-- C8: on a fully solved registry whose recipient edges form a single cycle
`top :: xs` over all the people (starting at the registry's first element),
`get_chain` follows the edges from `top`, stops when the edge returns to
`top`, and returns exactly that visitation order — in which each element's
recipient is the next element and the first element is the recipient of the
last. -/
theorem c8_get_chain_visits_cycle (a : Assignment) (top : Person)
    (xs ptail : List Person) (hperm : (top :: xs).Perm (top :: ptail))
    (hnd : (top :: xs).Nodup) (hcyc : linkedB a top xs top = true) :
    get_chain (top :: ptail).length a (top :: ptail) = some (top :: xs)
      ∧ linkedB a top xs top = true := by
  refine ⟨?_, hcyc⟩
  have htopxs : top ∉ xs := (List.nodup_cons.mp hnd).1
  have hlen : xs.length + 1 = ptail.length + 1 := by
    have := hperm.length_eq
    simpa using this
  show get_chain_go a top (top :: ptail).length top = some (top :: xs)
  exact get_chain_go_eq a top xs top _ hcyc htopxs (by rw [List.length_cons]; omega)

theorem c8_witness :
    get_chain ([pa, pc, pb] : List Person).length
        (applyEdges emptyA [(pa, pb), (pb, pc), (pc, pa)]) [pa, pc, pb] = some [pa, pb, pc]
      ∧ linkedB (applyEdges emptyA [(pa, pb), (pb, pc), (pc, pa)]) pa [pb, pc] pa = true :=
  c8_get_chain_visits_cycle (applyEdges emptyA [(pa, pb), (pb, pc), (pc, pa)]) pa
    [pb, pc] [pc, pb] (by decide) (by decide) (by decide)

/-- C2, counterexample: the one-person registry `[a]` (empty restrictions,
as the bare constructor produces) is successfully solved by the backtracking
solver — `get_secret_santa` succeeds and `dfs_draw` assigns `a` itself as
recipient, whose name is in `{a.name}`, violating the claim as stated. -/
theorem c2_counterexample :
    get_secret_santa id pa 1 pa (([pa] : List Person).erase pa) = some (some [(pa, pa)])
    ∧ (dfs_draw id 1 [pa] emptyA) pa = some pa
    ∧ pa.name ∈ pa.name :: pa.restrictions := by
  refine ⟨by decide, by decide, by decide⟩

/-- C2 (amended): for every registry of N ≥ 2 people with pairwise distinct
names successfully solved by either solver, each person's recipient has a
name outside the person's exclusion set and different from the person's own
name.  (For a one-person registry — or duplicate names — the backtracking
solver can close the cycle on the person itself, see the counterexample.) -/
theorem c2_no_excluded_recipient (people : List Person)
    (hnames : (people.map Person.name).Nodup) (hN : 2 ≤ people.length) :
    (∀ (chs : List (Nat → Nat)) (a a' : Assignment),
        brute_force_draw chs people a = some a' →
        ∀ p ∈ people, ∀ ss, a' p = some ss → ss.name ≠ p.name ∧ ss.name ∉ p.restrictions)
    ∧ (∀ (sh : List Person → List Person), (∀ l : List Person, (sh l).Perm l) →
        ∀ (fuel : Nat) (top : Person) (ptail : List Person) (edges : List (Person × Person)),
        people = top :: ptail →
        get_secret_santa sh top fuel top (people.erase top) = some (some edges) →
        ∀ p ∈ people, ∀ ss, dfs_draw sh fuel people emptyA p = some ss →
          ss.name ≠ p.name ∧ ss.name ∉ p.restrictions) := by
  constructor
  · intro chs a a' hdraw p hp ss hss
    obtain ⟨ch, _, a₀, htrial⟩ := brute_force_draw_eq_some chs people a a' hdraw
    have hflag : (_brute_force_draw ch people a₀).1 = true := by rw [htrial]
    obtain ⟨ss', hss', hname, hrestr⟩ :
        ∃ ss', (_brute_force_draw ch people a₀).2 p = some ss'
          ∧ ss'.name ≠ p.name ∧ ss'.name ∉ p.restrictions :=
      bfdGo_checked ch people people 0 a₀ hflag p hp
    rw [htrial] at hss'
    have hss'' : a' p = some ss' := hss'
    obtain rfl : ss' = ss := Option.some.inj (hss''.symm.trans hss)
    exact ⟨hname, hrestr⟩
  · intro sh hsh fuel top ptail edges hpeq hsucc p hp ss hss
    subst hpeq
    rw [List.erase_cons_head] at hsucc
    obtain ⟨l, hperm, hedges, hvalid⟩ := gss_success sh top hsh fuel top ptail edges hsucc
    have hdfs : dfs_draw sh fuel (top :: ptail) emptyA = applyEdges emptyA edges := by
      simp only [dfs_draw, List.erase_cons_head, hsucc]
    rw [hdfs] at hss
    rcases applyEdges_some edges emptyA p ss hss with hmem | habs
    · have hpc : (top :: l).Perm (top :: ptail) := hperm.cons top
      have hndp : (top :: ptail).Nodup := List.Nodup.of_map _ hnames
      have hndl : (top :: l).Nodup := hpc.nodup_iff.mpr hndp
      have hlne : l ≠ [] := by
        intro hl
        subst hl
        have hlen := hperm.length_eq
        rw [List.length_cons] at hN
        simp at hlen
        omega
      have hne : p ≠ ss :=
        chainEdges_ne top l top hndl (List.nodup_cons.mp hndl).1 (Or.inl hlne) p ss
          (by rw [hedges] at hmem; exact hmem)
      obtain ⟨hpmem, hsmem⟩ := chainEdges_mem top (top :: l) p ss
        (by rw [hedges] at hmem; exact hmem)
      have hsmem' : ss ∈ top :: l := by
        rcases hsmem with h | h
        · exact h
        · rw [h]; exact List.mem_cons_self _ _
      have hpmem2 : p ∈ top :: ptail := hpc.mem_iff.mp hpmem
      have hsmem2 : ss ∈ top :: ptail := hpc.mem_iff.mp hsmem'
      refine ⟨?_, hvalid (p, ss) hmem⟩
      intro hcontra
      exact hne (List.inj_on_of_nodup_map hnames hpmem2 hsmem2 hcontra.symm)
    · exact absurd habs (by simp [emptyA])

theorem c2_witness :
    (([pa, pb] : List Person).map Person.name).Nodup ∧ 2 ≤ ([pa, pb] : List Person).length
    ∧ (∀ (chs : List (Nat → Nat)) (a a' : Assignment),
        brute_force_draw chs [pa, pb] a = some a' →
        ∀ p ∈ ([pa, pb] : List Person), ∀ ss, a' p = some ss →
          ss.name ≠ p.name ∧ ss.name ∉ p.restrictions) :=
  ⟨by decide, by decide, (c2_no_excluded_recipient [pa, pb] (by decide) (by decide)).1⟩

/-- C6: one step of `get_secret_santa` follows the specified algorithm.
With empty `remaining` it succeeds — committing `current → top` — exactly
when the name of `top` is outside the exclusion set of `current`, and fails otherwise;
a success on nonempty `remaining` commits `current → pers` for a candidate
`pers` taken from the remaining people allowed by the restrictions of `current`
whose recursive call succeeded; and on failure every allowed remaining
candidate was tried and its recursive call failed, with no recipient
committed for `current` (a failing call in this embedding commits no edge
at all, mirroring the code where `set_secret_santa` runs only under a
successful recursive result). -/
theorem c6_get_secret_santa_step (sh : List Person → List Person) (top : Person)
    (hsh : ∀ l : List Person, (sh l).Perm l) (fuel : Nat) (current : Person)
    (ns : List Person) :
    (get_secret_santa sh top (fuel + 1) current [] =
        if top.name ∈ current.restrictions then some none
        else some (some [(current, top)]))
    ∧ (∀ edges, get_secret_santa sh top (fuel + 1) current ns = some (some edges) →
        (ns = [] ∧ top.name ∉ current.restrictions ∧ edges = [(current, top)]) ∨
        ∃ pers es, pers ∈ ns ∧ pers.name ∉ current.restrictions ∧
          get_secret_santa sh top fuel pers (ns.erase pers) = some (some es) ∧
          edges = (current, pers) :: es)
    ∧ (get_secret_santa sh top (fuel + 1) current ns = some none →
        ∀ pers ∈ ns, pers.name ∉ current.restrictions →
          get_secret_santa sh top fuel pers (ns.erase pers) = some none) := by
  refine ⟨?_, ?_, fun h => gss_failure sh top hsh fuel current ns h⟩
  · rw [get_secret_santa]
    by_cases hm : top.name ∈ current.restrictions
    · have hc : ¬(([] : List Person) = [] ∧ top.name ∉ current.restrictions) := by
        simp [hm]
      rw [if_neg hc, if_pos hm, List.filter_nil, List.perm_nil.mp (hsh [])]
      rfl
    · have hc : ([] : List Person) = [] ∧ top.name ∉ current.restrictions := ⟨rfl, hm⟩
      rw [if_pos hc, if_neg hm]
  · intro edges h
    rw [get_secret_santa] at h
    by_cases hc : ns = [] ∧ top.name ∉ current.restrictions
    · rw [if_pos hc] at h
      obtain rfl : [(current, top)] = edges := by injection h with h'; injection h'
      exact Or.inl ⟨hc.1, hc.2, rfl⟩
    · rw [if_neg hc] at h
      obtain ⟨pers, hmem, es, hes, hedges⟩ := try_possibilities_success _ _ _ _ h
      rw [(hsh _).mem_iff, List.mem_filter] at hmem
      exact Or.inr ⟨pers, es, hmem.1, of_decide_eq_true hmem.2, hes, hedges⟩

theorem c6_witness :
    get_secret_santa id pa 2 pa [] = some (some [(pa, pa)]) := by
  have h := (c6_get_secret_santa_step id pa (fun l => List.Perm.refl l) 1 pa [pb]).1
  rw [h]
  decide

/-- C7: in each rejection-sampling trial the candidate is picked from the
current pool, the whole trial fails on a pick whose name is excluded or the
person's own, and otherwise the pick is assigned and removed from the pool
(so distinct people get distinct recipients drawn from the registry); the
trial outcome and, on success, the recipients of all the people never depend
on the incoming assignment state, so the restart after a failed trial
observably behaves as if the failed trial's partial assignments were
discarded: a successful `brute_force_draw` equals its final successful
trial run from any state, in particular a pristine one. -/
theorem c7_trial_structure (people : List Person) (hnd : people.Nodup) :
    (∀ (ch : Nat → Nat) (a b : Assignment),
        (_brute_force_draw ch people a).1 = (_brute_force_draw ch people b).1
        ∧ ((_brute_force_draw ch people a).1 = true →
            ∀ p ∈ people,
              (_brute_force_draw ch people a).2 p = (_brute_force_draw ch people b).2 p))
    ∧ (∀ (ch : Nat → Nat) (a : Assignment), (_brute_force_draw ch people a).1 = true →
        (∀ p ∈ people, ∃ ss, (_brute_force_draw ch people a).2 p = some ss ∧ ss ∈ people
            ∧ ss.name ≠ p.name ∧ ss.name ∉ p.restrictions)
        ∧ ∀ p ∈ people, ∀ q ∈ people, p ≠ q →
            (_brute_force_draw ch people a).2 p ≠ (_brute_force_draw ch people a).2 q)
    ∧ (∀ (chs : List (Nat → Nat)) (a a' : Assignment),
        brute_force_draw chs people a = some a' →
        ∀ b : Assignment, ∃ ch, ch ∈ chs ∧ (_brute_force_draw ch people b).1 = true
          ∧ ∀ p ∈ people, a' p = (_brute_force_draw ch people b).2 p) := by
  refine ⟨?_, ?_, ?_⟩
  · intro ch a b
    exact ⟨bfdGo_fst_indep ch people people 0 a b,
      fun hs => bfdGo_agree ch people people 0 a b hs⟩
  · intro ch a hs
    constructor
    · intro p hp
      obtain ⟨ss, hss, hmem⟩ := bfdGo_mem ch people people 0 a hnd hs p hp
      obtain ⟨ss', hss', hname, hrestr⟩ := bfdGo_checked ch people people 0 a hs p hp
      have heq : ss' = ss := Option.some.inj (hss'.symm.trans hss)
      exact ⟨ss, hss, hmem, heq ▸ hname, heq ▸ hrestr⟩
    · exact fun p hp q hq hpq => bfdGo_inj ch people people 0 a hnd hnd hs p hp q hq hpq
  · intro chs
    induction chs with
    | nil => intro a a' h; exact absurd h (by simp [brute_force_draw])
    | cons ch rest ih =>
      intro a a' h b
      simp only [brute_force_draw] at h
      split at h
      · rename_i hflag
        obtain rfl : (_brute_force_draw ch people a).2 = a' := by injection h
        refine ⟨ch, List.mem_cons_self _ _, ?_, ?_⟩
        · exact (bfdGo_fst_indep ch people people 0 b a).trans hflag
        · intro p hp
          exact bfdGo_agree ch people people 0 a b hflag p hp
      · obtain ⟨ch', hmem, hflag, hagree⟩ := ih _ a' h b
        exact ⟨ch', List.mem_cons_of_mem _ hmem, hflag, hagree⟩

theorem c7_witness :
    ([pa, pb] : List Person).Nodup
    ∧ (_brute_force_draw (fun _ => 1) [pa, pb] emptyA).1
        = (_brute_force_draw (fun _ => 1) [pa, pb] (set_secret_santa emptyA pa pa)).1 :=
  ⟨by decide, ((c7_trial_structure [pa, pb] (by decide)).1 (fun _ => 1) emptyA
      (set_secret_santa emptyA pa pa)).1⟩

/-- C9: the backtracking search always terminates: with fuel exceeding the
size of `not_selected` (each recursive call strictly shrinks it, so the
depth never exceeds its size) `get_secret_santa` returns — either a found
cycle or exhaustively established failure — and never runs out of fuel. -/
theorem c9_backtracking_terminates (sh : List Person → List Person) (top : Person)
    (hsh : ∀ l : List Person, (sh l).Perm l) (fuel : Nat) (current : Person)
    (ns : List Person) (hfuel : ns.length < fuel) :
    (get_secret_santa sh top fuel current ns).isSome = true :=
  gss_terminates sh top hsh fuel current ns hfuel

theorem c9_witness : (get_secret_santa id pX 3 pX [pY, pZ]).isSome = true :=
  c9_backtracking_terminates id pX (fun l => List.Perm.refl l) 3 pX [pY, pZ] (by decide)

/-- C10 (implicit): `brute_force_draw` never assigns a person as their own
recipient, even when the person's own name is absent from their
restrictions, because every trial rejects a candidate whose name equals the
person's name in addition to the names in the restrictions. -/
theorem c10_never_self (chs : List (Nat → Nat)) (people : List Person)
    (a a' : Assignment) (h : brute_force_draw chs people a = some a') :
    ∀ p ∈ people, ∀ ss, a' p = some ss → ss.name ≠ p.name := by
  intro p hp ss hss
  obtain ⟨ch, _, a₀, htrial⟩ := brute_force_draw_eq_some chs people a a' h
  have hflag : (_brute_force_draw ch people a₀).1 = true := by rw [htrial]
  obtain ⟨ss', hss', hname, _⟩ :
      ∃ ss', (_brute_force_draw ch people a₀).2 p = some ss'
        ∧ ss'.name ≠ p.name ∧ ss'.name ∉ p.restrictions :=
    bfdGo_checked ch people people 0 a₀ hflag p hp
  rw [htrial] at hss'
  have hss'' : a' p = some ss' := hss'
  obtain rfl : ss' = ss := Option.some.inj (hss''.symm.trans hss)
  exact hname

theorem c10_witness :
    (brute_force_draw [fun _ => 1] [pa, pb] emptyA).isSome = true
    ∧ ∀ ss, (brute_force_draw [fun _ => 1] [pa, pb] emptyA).getD emptyA pa = some ss →
        ss.name ≠ pa.name := by
  refine ⟨by decide, ?_⟩
  intro ss hss
  exact c10_never_self [fun _ => 1] [pa, pb] emptyA
    ((brute_force_draw [fun _ => 1] [pa, pb] emptyA).getD emptyA) rfl pa
    (by decide) ss hss
